import Mathlib

/-!
Verification of the `mobec` indexed entity store.

The development shallowly embeds the runtime core of the repository:

* `Entity` and its component accessors embed the record type generated by the
  `define_entity!` macro (`src/src/entity.rs`): component types are identified
  by naturals (standing for Rust `TypeId`s) and component values by naturals.
* `Arena` embeds the `generational_arena::Arena` slot pool exactly as the
  dependency implements it (generation-tagged slots, free list, arena-wide
  generation counter); the spec describes this pool in §3/§4.1.
* `EntityList` and its operations are translated from `src/src/entity_list.rs`.
* The bit-vector machinery (`hibitset`'s `BitSet`, `BitSetAll`, `BitSetAnd`,
  `BitIter`) is embedded extensionally: a concrete `BitSet` is its ascending
  list of set bits, and iteration yields set bits in ascending order over the
  32-bit index space.
* The two iterator generations are both embedded: the defensive skipping
  iterator of `src/src/entity_list.rs` and the trusting panicking iterator of
  `src/src/iter.rs`.
-/

set_option maxHeartbeats 1000000

namespace Mobec

/-- Identifier handed out by the slot pool: a (slot index, generation) pair.
Embeds `generational_arena::Index`, aliased to `EntityId` in
`src/src/entity_list.rs`. -/
structure Index where
  index : Nat
  generation : Nat
deriving DecidableEq

/-- A record ("entity"): a property payload plus one optional value slot per
declared component type, in declaration order.  Embeds the struct generated by
`define_entity!` (`src/src/entity.rs`): mandatory property fields plus one
`Option<Box<C>>` field per component. -/
structure Entity where
  props : Nat
  comps : List (Nat × Option Nat)
deriving DecidableEq

/-- Look up the slot for component type `c` in the declared-component list. -/
def compLookup : List (Nat × Option Nat) → Nat → Option Nat
  | [], _ => none
  | kv :: rest, c => if kv.1 = c then kv.2 else compLookup rest c

/-- Embeds `EntityBase::get::<C>` / `Component::get`: the current value of the
`c` slot, `none` when the component is not populated. -/
def Entity.get (e : Entity) (c : Nat) : Option Nat :=
  compLookup e.comps c

/-- Embeds `EntityBase::has::<C>`: `C::get(self).is_some()`. -/
def Entity.has (e : Entity) (c : Nat) : Bool :=
  (e.get c).isSome

/-- Embeds `Component::set`: `entity.$name = Some(Box::new(self))`.  Writing an
undeclared component type cannot occur in the source (it is a compile-time
error), so the embedding leaves the entity unchanged in that case. -/
def Entity.set (e : Entity) (c v : Nat) : Entity :=
  { e with comps := e.comps.map (fun kv => if kv.1 = c then (kv.1, some v) else kv) }

/-- Embeds `Component::remove`: `entity.$name.take()` — returns the previous
value and clears the slot. -/
def Entity.takeComp (e : Entity) (c : Nat) : Option Nat × Entity :=
  (e.get c, { e with comps := e.comps.map (fun kv => if kv.1 = c then (kv.1, none) else kv) })

/-- Embeds `EntityBase::for_each_active_component`: the type ids of the
currently populated component slots, in declaration order. -/
def Entity.activeComponents (e : Entity) : List Nat :=
  (e.comps.filter (fun kv => kv.2.isSome)).map (fun kv => kv.1)

/-! ### Concrete bit vectors

A `hibitset::BitSet` is embedded extensionally as its ascending, duplicate-free
list of set bits.  `add`, `remove` and `contains` below match the member-set
semantics of `BitSet::add`, `BitSet::remove` and `BitSetLike::contains`;
capacity is not modelled because it never affects membership. -/

/-- Insert bit `n` keeping the ascending canonical form (`BitSet::add`). -/
def bsAdd : List Nat → Nat → List Nat
  | [], n => [n]
  | m :: rest, n =>
    if n < m then n :: m :: rest
    else if n = m then m :: rest
    else m :: bsAdd rest n

/-- Clear bit `n` (`BitSet::remove`); a no-op when the bit is clear. -/
def bsRemove (s : List Nat) (n : Nat) : List Nat :=
  s.filter (fun m => m ≠ n)

/-- Bit membership test (`BitSetLike::contains`). -/
def bsContains (s : List Nat) (n : Nat) : Bool :=
  s.contains n

/-! ### The bitset index table

`EntityList.bitsets` is a `HashMap<TypeId, BitSet>`; it is embedded as an
association list with unique keys.  `assocInsert` overwrites like
`HashMap::insert`, `assocUpdate` mutates in place like `HashMap::get_mut`
inside an `if let`, and `assocErase` models `HashMap::remove`. -/

/-- First-match lookup (`HashMap::get`). -/
def assocLookup : List (Nat × List Nat) → Nat → Option (List Nat)
  | [], _ => none
  | kv :: rest, c => if kv.1 = c then some kv.2 else assocLookup rest c

/-- Insert-or-overwrite (`HashMap::insert`). -/
def assocInsert : List (Nat × List Nat) → Nat → List Nat → List (Nat × List Nat)
  | [], c, b => [(c, b)]
  | kv :: rest, c, b => if kv.1 = c then (c, b) :: rest else kv :: assocInsert rest c b

/-- Remove a key (`HashMap::remove`). -/
def assocErase : List (Nat × List Nat) → Nat → List (Nat × List Nat)
  | [], _ => []
  | kv :: rest, c => if kv.1 = c then rest else kv :: assocErase rest c

/-- Apply `f` to the value stored under `c`, if any: models
`if let Some(bitset) = self.bitsets.get_mut(&type_id) { ... }`. -/
def assocUpdate : List (Nat × List Nat) → Nat → (List Nat → List Nat) → List (Nat × List Nat)
  | [], _, _ => []
  | kv :: rest, c, f => if kv.1 = c then (kv.1, f kv.2) :: rest else kv :: assocUpdate rest c f

/-! ### The slot pool (`generational_arena::Arena`)

Faithful embedding of the dependency the store builds on, which the spec
describes as the Slot Pool (§3, §4.1): an array of slots that are either free
(linked into a free list) or occupied by a generation-tagged record, plus an
arena-wide generation counter that increases on every removal. -/

/-- One slot of the arena: `generational_arena::Entry`. -/
inductive Entry where
  | free (nextFree : Option Nat)
  | occupied (generation : Nat) (value : Entity)
deriving DecidableEq

/-- The arena state: `generational_arena::Arena`. -/
structure Arena where
  items : List Entry
  generation : Nat
  freeListHead : Option Nat
  len : Nat
deriving DecidableEq

/-- Embeds `Arena::reserve(additional)`: extend `items` with `additional` free
slots chained upward, the last one pointing at the old free-list head, and make
the first new slot the new head. -/
def Arena.reserve (a : Arena) (additional : Nat) : Arena :=
  let start := a.items.length
  let newEntries := (List.range additional).map (fun k =>
    if k = additional - 1 then Entry.free a.freeListHead
    else Entry.free (some (start + k + 1)))
  { a with items := a.items ++ newEntries,
           freeListHead := if additional = 0 then a.freeListHead else some start }

/-- Embeds `Arena::with_capacity(4)` as called from `Arena::new`: four chained
free slots and a zero generation counter. -/
def Arena.new : Arena :=
  { items := [Entry.free (some 1), Entry.free (some 2), Entry.free (some 3), Entry.free none],
    generation := 0, freeListHead := some 0, len := 0 }

/-- Embeds `Arena::try_insert`: pop the free-list head and occupy it with the
current arena generation.  The source panics (`unreachable!`) when the head
points at a non-free slot; that state never arises (the free list always links
free slots), and the embedding reports failure there instead. -/
def Arena.tryInsert (a : Arena) (e : Entity) : Option (Arena × Index) :=
  match a.freeListHead with
  | none => none
  | some i =>
    match a.items.get? i with
    | some (Entry.free next) =>
        some ({ a with items := a.items.set i (Entry.occupied a.generation e),
                       freeListHead := next,
                       len := a.len + 1 },
              ⟨i, a.generation⟩)
    | _ => none

/-- Embeds `Arena::insert`: fast path via the free list, else grow by the
current capacity (`insert_slow_path` reserves `capacity` more slots, at least
one) and retry.  The final fallback arm is unreachable: after `reserve` the
free list is nonempty and points at a fresh free slot. -/
def Arena.insert (a : Arena) (e : Entity) : Arena × Index :=
  match a.tryInsert e with
  | some r => r
  | none =>
    let a' := a.reserve (max a.items.length 1)
    match a'.tryInsert e with
    | some r => r
    | none => (a', ⟨0, 0⟩)

/-- Embeds `Arena::remove`: on a generation match, free the slot onto the free
list, bump the arena generation, and hand the record back; otherwise leave the
arena untouched and return nothing. -/
def Arena.remove (a : Arena) (id : Index) : Arena × Option Entity :=
  match a.items.get? id.index with
  | some (Entry.occupied g e) =>
      if g = id.generation then
        ({ items := a.items.set id.index (Entry.free a.freeListHead),
           generation := a.generation + 1,
           freeListHead := some id.index,
           len := a.len - 1 }, some e)
      else (a, none)
  | _ => (a, none)

/-- Embeds `Arena::get`: the record at `id.index` when the stored generation
matches `id.generation`. -/
def Arena.get (a : Arena) (id : Index) : Option Entity :=
  match a.items.get? id.index with
  | some (Entry.occupied g e) => if g = id.generation then some e else none
  | _ => none

/-- Embeds `Arena::contains`. -/
def Arena.contains (a : Arena) (id : Index) : Bool :=
  (a.get id).isSome

/-- Embeds `Arena::get_unknown_gen`: position-only lookup used by the
iteration engine, returning the record together with its true identifier. -/
def Arena.getUnknownGen (a : Arena) (i : Nat) : Option (Entity × Index) :=
  match a.items.get? i with
  | some (Entry.occupied g e) => some (e, ⟨i, g⟩)
  | _ => none

/-- Embeds mutation of one record through `Arena::get_mut`: apply `f` to the
record named by `id` when it is live; the flag reports whether it was. -/
def Arena.modify (a : Arena) (id : Index) (f : Entity → Entity) : Arena × Bool :=
  match a.items.get? id.index with
  | some (Entry.occupied g e) =>
      if g = id.generation then
        ({ a with items := a.items.set id.index (Entry.occupied g (f e)) }, true)
      else (a, false)
  | _ => (a, false)

/-- Embeds `Arena::iter` (ascending slot order): the occupied positions with
their generation and record. -/
def Arena.occList (a : Arena) : List (Nat × Nat × Entity) :=
  (List.range a.items.length).filterMap (fun i =>
    match a.items.get? i with
    | some (Entry.occupied g e) => some (i, g, e)
    | _ => none)

/-! ### The store (`EntityList`, `src/src/entity_list.rs`) -/

/-- The indexed entity store: the per-component bitset index table plus the
slot pool.  Embeds `EntityList` from `src/src/entity_list.rs`. -/
structure EntityList where
  bitsets : List (Nat × List Nat)
  entities : Arena
deriving DecidableEq

/-- Embeds `EntityList::new`. -/
def EntityList.new : EntityList :=
  { bitsets := [], entities := Arena.new }

/-- Set bit `p` in every registered bitset among `cs`: the
`for type_id in type_ids { if let Some(bitset) = ... { bitset.add(p) } }` loop
of `EntityList::insert`. -/
def updBitsAdd (bitsets : List (Nat × List Nat)) (cs : List Nat) (p : Nat) :
    List (Nat × List Nat) :=
  cs.foldl (fun bs c => assocUpdate bs c (fun b => bsAdd b p)) bitsets

/-- Clear bit `p` in every registered bitset among `cs`: the
`for_each_active_component` clearing loop of `EntityList::remove` and
`EntityList::retain`. -/
def updBitsRemove (bitsets : List (Nat × List Nat)) (cs : List Nat) (p : Nat) :
    List (Nat × List Nat) :=
  cs.foldl (fun bs c => assocUpdate bs c (fun b => bsRemove b p)) bitsets

/-- Embeds `EntityList::insert`: collect the entity's active component type
ids, insert into the arena, then set the new slot's bit in every registered
index of an active component. -/
def EntityList.insert (s : EntityList) (e : Entity) : EntityList × Index :=
  let typeIds := e.activeComponents
  let r := s.entities.insert e
  ({ bitsets := updBitsAdd s.bitsets typeIds r.2.index,
     entities := r.1 }, r.2)

/-- Embeds `EntityList::remove`: on a live identifier, remove from the arena
and clear the slot's bit in every registered index of a component the removed
record had; on a miss, return `none` and change nothing. -/
def EntityList.remove (s : EntityList) (id : Index) : EntityList × Option Entity :=
  match s.entities.remove id with
  | (a', some e) =>
      ({ bitsets := updBitsRemove s.bitsets e.activeComponents id.index,
         entities := a' }, some e)
  | (a', none) => ({ s with entities := a' }, none)

/-- Embeds `EntityList::get`. -/
def EntityList.get (s : EntityList) (id : Index) : Option Entity :=
  s.entities.get id

/-- Embeds `EntityList::get_mut`: the same lookup as `get`; mutation through
the returned reference is modelled by `Arena.modify` where the store performs
it. -/
def EntityList.getMut (s : EntityList) (id : Index) : Option Entity :=
  s.entities.get id

/-- Embeds `EntityList::contains`. -/
def EntityList.contains (s : EntityList) (id : Index) : Bool :=
  s.entities.contains id

/-- Embeds `EntityList::len`. -/
def EntityList.len (s : EntityList) : Nat :=
  s.entities.len

/-- The scan performed by `EntityList::add_bitset_for_component`: walk the
arena in ascending slot order and set the bit of every slot whose record has
component `c`.  (The source allocates the bitset with the arena's capacity;
capacity does not affect membership and is not modelled.) -/
def buildBitset (a : Arena) (c : Nat) : List Nat :=
  a.occList.foldl (fun bs x => if x.2.2.has c then bsAdd bs x.1 else bs) []

/-- Embeds `EntityList::add_bitset_for_component::<C>`: build the scan bitset
for `c` and install it, overwriting any previous index for `c`. -/
def EntityList.addBitsetForComponent (s : EntityList) (c : Nat) : EntityList :=
  { s with bitsets := assocInsert s.bitsets c (buildBitset s.entities c) }

/-- Embeds `EntityList::remove_bitset_for_component::<C>`: drop the index for
`c`, reporting whether one was registered.  (The source also builds a scratch
bitset first; it is dropped unused and is not modelled.) -/
def EntityList.removeBitsetForComponent (s : EntityList) (c : Nat) : EntityList × Bool :=
  ({ s with bitsets := assocErase s.bitsets c },
   (assocLookup s.bitsets c).isSome)

/-- Embeds `EntityList::add_component_for_entity`: set the component through
`get_mut` when the entity is live and mark its bit in the index for `c` if one
is registered; hand the component back (`some v`) when the entity is gone. -/
def EntityList.addComponentForEntity (s : EntityList) (id : Index) (c v : Nat) :
    EntityList × Option Nat :=
  let r := s.entities.modify id (fun e => e.set c v)
  if r.2 then
    ({ bitsets := assocUpdate s.bitsets c (fun b => bsAdd b id.index),
       entities := r.1 }, none)
  else (s, some v)

/-- Embeds `EntityList::remove_component_for_entity`: take the component
through `get_mut`; when one was present, clear its bit in the index for `c` if
one is registered and return the old value, otherwise change nothing. -/
def EntityList.removeComponentForEntity (s : EntityList) (id : Index) (c : Nat) :
    EntityList × Option Nat :=
  match s.entities.items.get? id.index with
  | some (Entry.occupied g e) =>
      if g = id.generation then
        match (e.takeComp c).1 with
        | some v =>
            ({ bitsets := assocUpdate s.bitsets c (fun b => bsRemove b id.index),
               entities := { s.entities with
                 items := s.entities.items.set id.index
                   (Entry.occupied g (e.takeComp c).2) } }, some v)
        | none =>
            ({ s with entities := { s.entities with
                 items := s.entities.items.set id.index
                   (Entry.occupied g (e.takeComp c).2) } }, none)
      else (s, none)
  | _ => (s, none)

/-- One iteration of the closure `EntityList::retain` passes to
`Arena::retain` at slot `i`: on an occupied slot, evaluate the caller's
predicate; when it returns `true` the closure clears the record's bits from
every registered index and returns `true` — and `Arena::retain` then KEEPS the
record, because its contract keeps elements for which the closure returns
`true`; when it returns `false` the bits are left alone and `Arena::retain`
removes the record.  (The `&mut E` access the predicate receives is modelled
as read-only.) -/
def EntityList.retainStep (p : Index → Entity → Bool) (st : EntityList) (i : Nat) :
    EntityList :=
  match st.entities.items.get? i with
  | some (Entry.occupied g e) =>
      let shouldDelete := p ⟨i, g⟩ e
      let bitsets' := if shouldDelete then updBitsRemove st.bitsets e.activeComponents i
                      else st.bitsets
      let entities' := if shouldDelete then st.entities
                       else (st.entities.remove ⟨i, g⟩).1
      { bitsets := bitsets', entities := entities' }
  | _ => st

/-- Embeds `EntityList::retain`: `Arena::retain` walks slots `0..capacity` in
order, running the bit-clearing closure above on each occupied slot. -/
def EntityList.retain (s : EntityList) (p : Index → Entity → Bool) : EntityList :=
  (List.range s.entities.items.length).foldl (EntityList.retainStep p) s

/-! ### The conjunctive iteration engine

`hibitset` combinators are embedded structurally: `BitSetAll` contains every
index of the 32-bit index space, `BitSetAnd` intersects, and a `BitIter`
yields the set bits in ascending order. -/

/-- The 32-bit index space `hibitset` bit iterators range over (slot indices
are cast `as u32` before entering a bitset). -/
def bitsetUniverse : Nat := 2 ^ 32

/-- A `BitSetLike` value as assembled by the iteration engine: `BitSetAll`, a
reference to a stored `BitSet`, or a `BitSetAnd` of two of them. -/
inductive BitSetLike where
  | all
  | set (bits : List Nat)
  | and (left right : BitSetLike)

/-- Membership for the three `BitSetLike` shapes. -/
def BitSetLike.mem : BitSetLike → Nat → Bool
  | .all, _ => true
  | .set bits, n => bsContains bits n
  | .and l r, n => l.mem n && r.mem n

/-- The full output of a `BitIter`: the members in ascending order, over the
32-bit index space. -/
def BitSetLike.iterList (b : BitSetLike) : List Nat :=
  (List.range bitsetUniverse).filter (fun n => b.mem n)

/-- Embeds `MultiComponent::iter`'s bitset assembly in the
`multi_component_impl!` macro of `src/src/entity_list.rs`: starting from
`BitSetAll`, fold the requested component types left to right, AND-ing in the
registered bitset for each, or `BitSetAll` again when none is registered. -/
def combinedBitset (bitsets : List (Nat × List Nat)) (req : List Nat) : BitSetLike :=
  req.foldl (fun acc c =>
    match assocLookup bitsets c with
    | some b => BitSetLike.and acc (BitSetLike.set b)
    | none => BitSetLike.and acc BitSetLike.all) BitSetLike.all

/-- Embeds `MultiComponent::entity_has_components`:
`entity.has::<T1>() && ... && true`. -/
def entityHasComponents (e : Entity) (req : List Nat) : Bool :=
  req.all (fun c => e.has c)

/-- The defensive `MultiComponentIter`/`MultiComponentIterMut` loop of
`src/src/entity_list.rs`, run over a list of bit positions: resolve each
position with `get_unknown_gen`, re-verify the requested components, yield on
success and silently skip otherwise.  The mutable variant yields the same
(position, record) sequence. -/
def defensiveGo (a : Arena) (req : List Nat) : List Nat → List (Index × Entity)
  | [] => []
  | n :: rest =>
    match a.getUnknownGen n with
    | some (e, i) =>
        if entityHasComponents e req then (i, e) :: defensiveGo a req rest
        else defensiveGo a req rest
    | none => defensiveGo a req rest

/-- Embeds `EntityList::iter_for_components` (and its `iter_mut` twin): run
the defensive loop over the ascending bit positions of the combined bitset. -/
def EntityList.iterForComponents (s : EntityList) (req : List Nat) :
    List (Index × Entity) :=
  defensiveGo s.entities req (combinedBitset s.bitsets req).iterList

/-- Embeds `EntityList::iter` (the unfiltered traversal): arena iteration in
ascending slot order. -/
def EntityList.iterAll (s : EntityList) : List (Index × Entity) :=
  s.entities.occList.map (fun x => (⟨x.1, x.2.1⟩, x.2.2))

/-- The trusting `MultiComponentIter`/`MultiComponentIterMut` loop of
`src/src/iter.rs`, run over a list of bit positions: each position is resolved
with `get_unknown_gen` and yielded unconditionally; a position the pool cannot
resolve hits the `expect("!!!!FATAL: bitset is out of date...")` panic, which
ends the traversal — the flag records that the panic fired. -/
def trustingGo (a : Arena) : List Nat → List (Index × Entity) × Bool
  | [] => ([], false)
  | n :: rest =>
    match a.getUnknownGen n with
    | some (e, i) =>
        let r := trustingGo a rest
        ((i, e) :: r.1, r.2)
    | none => ([], true)

/-- The full run of the trusting iterator of `src/src/iter.rs` over a combined
bitset: the yielded items, and whether the fatal out-of-date panic fired. -/
def trustingIterOut (b : BitSetLike) (a : Arena) : List (Index × Entity) × Bool :=
  trustingGo a b.iterList

/-! ### The index-correctness invariant -/

/-- Index correctness (spec §3): every registered bitset equals the bit vector
obtained by a fresh record-by-record scan of the slot pool — bit `p` is set
iff slot `p` is occupied and its record has the component.  Stated as equality
with `buildBitset` (both sides are canonical ascending bit lists), which
`mem_buildBitset` below unfolds into the pointwise form. -/
def IndexCorrect (s : EntityList) : Bool :=
  s.bitsets.all (fun cb => decide (cb.2 = buildBitset s.entities cb.1))

/-! ### Snapshots (`src/src/serde.rs`)

`Serialize for EntityList` forwards to the arena alone, so a snapshot is the
ordered slot contents: `some (generation, record)` for an occupied slot,
`none` for a free one (the persisted form the spec describes in §6). -/

/-- Embeds `Serialize for EntityList`: serialize `self.entities` only; the
bitset table is never written. -/
def serializeEntityList (s : EntityList) : List (Option (Nat × Entity)) :=
  s.entities.items.map (fun it =>
    match it with
    | Entry.occupied g e => some (g, e)
    | Entry.free _ => none)

/-- Rebuild the slot array from a snapshot, rechaining free slots in ascending
order; returns the items together with the first free position. -/
def snapItems : Nat → List (Option (Nat × Entity)) → List Entry × Option Nat
  | _, [] => ([], none)
  | i, o :: rest =>
    let r := snapItems (i + 1) rest
    match o with
    | some (g, e) => (Entry.occupied g e :: r.1, r.2)
    | none => (Entry.free r.2 :: r.1, some i)

/-- The arena a deserialized snapshot denotes: the same ordered slot contents;
the arena-wide generation counter restarts above every stored generation, so
identifier integrity is preserved across the round trip. -/
def arenaOfSnapshot (snap : List (Option (Nat × Entity))) : Arena :=
  { items := (snapItems 0 snap).1,
    generation := snap.foldl (fun m o =>
      match o with
      | some (g, _) => max m (g + 1)
      | none => m) 0,
    freeListHead := (snapItems 0 snap).2,
    len := (snap.filter (fun o => o.isSome)).length }

/-- Modelled from the spec: `EntityList::from_arena` is referenced by
`src/src/serde.rs` and the benches but its definition is not under `src/`;
per §6, on load "every previously-registered index type is rebuilt by a full
scan", so the store is the loaded arena plus one freshly scanned bitset per
registered component type. -/
def EntityList.fromArena (registered : List Nat) (a : Arena) : EntityList :=
  { entities := a,
    bitsets := registered.map (fun c => (c, buildBitset a c)) }

/-- Embeds `Deserialize for EntityList`: deserialize the arena, then rebuild
the store from it. -/
def deserializeEntityList (registered : List Nat) (snap : List (Option (Nat × Entity))) :
    EntityList :=
  EntityList.fromArena registered (arenaOfSnapshot snap)

/-! ### Insert/remove histories (for identifier integrity) -/

/-- One step of the insert/remove surface the identifier-integrity property
quantifies over. -/
inductive IROp where
  | ins (e : Entity)
  | rem (id : Index)

/-- Apply one insert/remove step to the store. -/
def applyIROp (s : EntityList) : IROp → EntityList
  | .ins e => (s.insert e).1
  | .rem id => (s.remove id).1

/-- Apply a sequence of insert/remove steps. -/
def applyIR (ops : List IROp) (s : EntityList) : EntityList :=
  ops.foldl applyIROp s

/-- The stores reachable from the empty store through inserts and removes. -/
def ReachableIR (s : EntityList) : Prop :=
  ∃ ops, s = applyIR ops EntityList.new

/-- `true` when no step of `ops` removes `id`. -/
def avoidsRemove (id : Index) (ops : List IROp) : Bool :=
  ops.all (fun op =>
    match op with
    | .ins _ => true
    | .rem id2 => decide (id2 ≠ id))

/-! ### Helper lemmas: bit vectors and iteration -/

theorem mem_bsAdd {s : List Nat} {n m : Nat} : m ∈ bsAdd s n ↔ m = n ∨ m ∈ s := by
  induction s with
  | nil => simp [bsAdd]
  | cons k rest ih =>
    by_cases h1 : n < k
    · simp [bsAdd, h1]
    · by_cases h2 : n = k
      · subst h2
        simp [bsAdd, h1]
      · simp [bsAdd, h1, h2, ih]
        tauto

theorem mem_iterList {b : BitSetLike} {n : Nat} :
    n ∈ b.iterList ↔ b.mem n = true ∧ n < bitsetUniverse := by
  simp only [BitSetLike.iterList, List.mem_filter, List.mem_range]
  tauto

theorem pairwise_iterList (b : BitSetLike) : b.iterList.Pairwise (· < ·) :=
  List.Pairwise.sublist (List.filter_sublist _) (List.pairwise_lt_range _)

theorem filterMap_map_sublist {α β : Type} (f : α → Option β) (g : β → α) (l : List α)
    (h : ∀ x y, f x = some y → g y = x) : List.Sublist ((l.filterMap f).map g) l := by
  induction l with
  | nil => simp
  | cons x rest ih =>
    cases hf : f x with
    | none =>
      rw [List.filterMap_cons_none hf]
      exact ih.cons x
    | some y =>
      rw [List.filterMap_cons_some hf, List.map_cons, h x y hf]
      exact ih.cons₂ x

theorem getUnknownGen_eq_some {a : Arena} {n : Nat} {e : Entity} {i : Index} :
    a.getUnknownGen n = some (e, i) ↔
      i.index = n ∧ a.items.get? n = some (Entry.occupied i.generation e) := by
  unfold Arena.getUnknownGen
  cases hq : a.items.get? n with
  | none => simp
  | some entry =>
    cases entry with
    | free m => simp
    | occupied g v =>
      obtain ⟨ii, ig⟩ := i
      simp only [Option.some.injEq, Prod.mk.injEq, Entry.occupied.injEq,
        Index.mk.injEq]
      constructor
      · intro h
        simp_all
      · intro h
        simp_all

theorem occList_positions_sublist (a : Arena) :
    List.Sublist (a.occList.map (fun x => x.1)) (List.range a.items.length) := by
  apply filterMap_map_sublist
  intro i y h
  cases hq : a.items.get? i <;> rw [hq] at h
  · cases h
  · rename_i entry
    cases entry with
    | free m => cases h
    | occupied g v =>
      injection h with h2
      rw [← h2]

theorem mem_occList {a : Arena} {x : Nat × Nat × Entity} :
    x ∈ a.occList ↔ a.items.get? x.1 = some (Entry.occupied x.2.1 x.2.2) := by
  obtain ⟨p, g, e⟩ := x
  simp only [Arena.occList, List.mem_filterMap, List.mem_range]
  constructor
  · rintro ⟨i, hi, hf⟩
    cases hq : a.items.get? i <;> rw [hq] at hf
    · cases hf
    · rename_i entry
      cases entry with
      | free m => cases hf
      | occupied g' e' =>
        simp only [Option.some.injEq, Prod.mk.injEq] at hf
        obtain ⟨rfl, rfl, rfl⟩ := hf
        exact hq
  · intro h
    have hlt : p < a.items.length := by
      obtain ⟨hlt, -⟩ := List.get?_eq_some.mp h
      exact hlt
    exact ⟨p, hlt, by rw [h]⟩

theorem mem_buildBitset_aux (c : Nat) (l : List (Nat × Nat × Entity)) (init : List Nat)
    (n : Nat) :
    n ∈ l.foldl (fun bs x => if x.2.2.has c then bsAdd bs x.1 else bs) init ↔
      n ∈ init ∨ ∃ x ∈ l, x.1 = n ∧ x.2.2.has c = true := by
  induction l generalizing init with
  | nil => simp
  | cons x rest ih =>
    simp only [List.foldl_cons]
    rw [ih]
    by_cases h : x.2.2.has c
    · simp only [h, if_true, mem_bsAdd, List.mem_cons]
      constructor
      · rintro (⟨rfl | hn⟩ | hrest)
        · exact Or.inr ⟨x, Or.inl rfl, rfl, h⟩
        · exact Or.inl hn
        · obtain ⟨y, hy, hyn, hyc⟩ := hrest
          exact Or.inr ⟨y, Or.inr hy, hyn, hyc⟩
      · rintro (hn | ⟨y, (rfl | hy), hyn, hyc⟩)
        · exact Or.inl (Or.inr hn)
        · exact Or.inl (Or.inl hyn.symm)
        · exact Or.inr ⟨y, hy, hyn, hyc⟩
    · simp only [h, if_false, List.mem_cons]
      constructor
      · rintro (hn | ⟨y, hy, hyn, hyc⟩)
        · exact Or.inl hn
        · exact Or.inr ⟨y, Or.inr hy, hyn, hyc⟩
      · rintro (hn | ⟨y, (rfl | hy), hyn, hyc⟩)
        · exact Or.inl hn
        · exact absurd hyc (by simpa using h)
        · exact Or.inr ⟨y, hy, hyn, hyc⟩

theorem mem_buildBitset {a : Arena} {c n : Nat} :
    bsContains (buildBitset a c) n = true ↔
      ∃ g e, a.items.get? n = some (Entry.occupied g e) ∧ e.has c = true := by
  unfold buildBitset bsContains
  rw [List.contains_iff_exists_mem_beq]
  constructor
  · rintro ⟨m, hm, hbeq⟩
    have : n = m := by simpa [Nat.beq_eq] using hbeq
    subst this
    rw [mem_buildBitset_aux] at hm
    rcases hm with h | ⟨x, hx, rfl, hc⟩
    · cases h
    · rw [mem_occList] at hx
      exact ⟨x.2.1, x.2.2, hx, hc⟩
  · rintro ⟨g, e, hq, hc⟩
    refine ⟨n, ?_, by simp⟩
    rw [mem_buildBitset_aux]
    exact Or.inr ⟨(n, g, e), mem_occList.mpr hq, rfl, hc⟩

theorem mem_combined_aux (bs : List (Nat × List Nat)) (req : List Nat) (acc : BitSetLike)
    (n : Nat) :
    (req.foldl (fun acc c =>
      match assocLookup bs c with
      | some b => BitSetLike.and acc (BitSetLike.set b)
      | none => BitSetLike.and acc BitSetLike.all) acc).mem n =
    (acc.mem n && req.all (fun c =>
      match assocLookup bs c with
      | some b => bsContains b n
      | none => true)) := by
  induction req generalizing acc with
  | nil => simp
  | cons c rest ih =>
    simp only [List.foldl_cons, List.all_cons]
    cases h : assocLookup bs c with
    | none =>
      rw [ih]
      simp [BitSetLike.mem, Bool.and_assoc]
    | some b =>
      rw [ih]
      simp [BitSetLike.mem, Bool.and_assoc]

theorem mem_combinedBitset (bs : List (Nat × List Nat)) (req : List Nat) (n : Nat) :
    (combinedBitset bs req).mem n = req.all (fun c =>
      match assocLookup bs c with
      | some b => bsContains b n
      | none => true) := by
  unfold combinedBitset
  rw [mem_combined_aux]
  simp [BitSetLike.mem]

theorem lookup_all_eq {l : List (Nat × List Nat)} {f : Nat → List Nat} {c : Nat}
    {b : List Nat}
    (hall : l.all (fun cb => decide (cb.2 = f cb.1)) = true)
    (hb : assocLookup l c = some b) : b = f c := by
  induction l with
  | nil => simp [assocLookup] at hb
  | cons kv rest ih =>
    simp only [List.all_cons, Bool.and_eq_true, decide_eq_true_eq] at hall
    unfold assocLookup at hb
    by_cases h : kv.1 = c
    · rw [if_pos h] at hb
      cases hb
      rw [hall.1, h]
    · rw [if_neg h] at hb
      exact ih hall.2 hb

theorem defensiveGo_cons_none {a : Arena} {req : List Nat} {n : Nat} {rest : List Nat}
    (hg : a.getUnknownGen n = none) :
    defensiveGo a req (n :: rest) = defensiveGo a req rest := by
  conv_lhs => unfold defensiveGo
  rw [hg]

theorem defensiveGo_cons_pos {a : Arena} {req : List Nat} {n : Nat} {rest : List Nat}
    {e : Entity} {i : Index} (hg : a.getUnknownGen n = some (e, i))
    (hc : entityHasComponents e req = true) :
    defensiveGo a req (n :: rest) = (i, e) :: defensiveGo a req rest := by
  conv_lhs => unfold defensiveGo
  rw [hg]
  simp [hc]

theorem defensiveGo_cons_neg {a : Arena} {req : List Nat} {n : Nat} {rest : List Nat}
    {e : Entity} {i : Index} (hg : a.getUnknownGen n = some (e, i))
    (hc : entityHasComponents e req = false) :
    defensiveGo a req (n :: rest) = defensiveGo a req rest := by
  conv_lhs => unfold defensiveGo
  rw [hg]
  simp [hc]

theorem mem_defensiveGo {a : Arena} {req : List Nat} {l : List Nat} {i : Index}
    {e : Entity} :
    (i, e) ∈ defensiveGo a req l ↔
      i.index ∈ l ∧ a.getUnknownGen i.index = some (e, i) ∧
        entityHasComponents e req = true := by
  induction l with
  | nil => simp [defensiveGo]
  | cons n rest ih =>
    simp only [List.mem_cons]
    cases hg : a.getUnknownGen n with
    | none =>
      rw [defensiveGo_cons_none hg, ih]
      constructor
      · rintro ⟨hmem, hres, hcomp⟩
        exact ⟨Or.inr hmem, hres, hcomp⟩
      · rintro ⟨hn | hmem, hres, hcomp⟩
        · rw [hn, hg] at hres
          cases hres
        · exact ⟨hmem, hres, hcomp⟩
    | some p =>
      obtain ⟨e2, i2⟩ := p
      have hidx : i2.index = n := (getUnknownGen_eq_some.mp hg).1
      cases hc : entityHasComponents e2 req with
      | true =>
        rw [defensiveGo_cons_pos hg hc, List.mem_cons, ih]
        constructor
        · rintro (heq | ⟨hmem, hres, hcomp⟩)
          · cases heq
            refine ⟨Or.inl hidx, ?_, hc⟩
            rw [hidx]
            exact hg
          · exact ⟨Or.inr hmem, hres, hcomp⟩
        · rintro ⟨hn | hmem, hres, hcomp⟩
          · rw [hn, hg] at hres
            cases hres
            exact Or.inl rfl
          · exact Or.inr ⟨hmem, hres, hcomp⟩
      | false =>
        rw [defensiveGo_cons_neg hg hc, ih]
        constructor
        · rintro ⟨hmem, hres, hcomp⟩
          exact ⟨Or.inr hmem, hres, hcomp⟩
        · rintro ⟨hn | hmem, hres, hcomp⟩
          · rw [hn, hg] at hres
            cases hres
            rw [hcomp] at hc
            cases hc
          · exact ⟨hmem, hres, hcomp⟩

theorem defensiveGo_positions_sublist (a : Arena) (req : List Nat) (l : List Nat) :
    List.Sublist ((defensiveGo a req l).map (fun x => x.1.index)) l := by
  induction l with
  | nil => simp [defensiveGo]
  | cons n rest ih =>
    cases hg : a.getUnknownGen n with
    | none =>
      rw [defensiveGo_cons_none hg]
      exact ih.cons n
    | some p =>
      obtain ⟨e2, i2⟩ := p
      have hidx : i2.index = n := (getUnknownGen_eq_some.mp hg).1
      cases hc : entityHasComponents e2 req with
      | true =>
        rw [defensiveGo_cons_pos hg hc, List.map_cons]
        simpa [hidx] using ih.cons₂ n
      | false =>
        rw [defensiveGo_cons_neg hg hc]
        exact ih.cons n

theorem trustingGo_cons_none {a : Arena} {n : Nat} {rest : List Nat}
    (hg : a.getUnknownGen n = none) :
    trustingGo a (n :: rest) = ([], true) := by
  conv_lhs => unfold trustingGo
  rw [hg]

theorem trustingGo_cons_some {a : Arena} {n : Nat} {rest : List Nat}
    {e : Entity} {i : Index} (hg : a.getUnknownGen n = some (e, i)) :
    trustingGo a (n :: rest) =
      ((i, e) :: (trustingGo a rest).1, (trustingGo a rest).2) := by
  conv_lhs => unfold trustingGo
  rw [hg]

theorem trustingGo_positions_sublist (a : Arena) (l : List Nat) :
    List.Sublist ((trustingGo a l).1.map (fun x => x.1.index)) l := by
  induction l with
  | nil => simp [trustingGo]
  | cons n rest ih =>
    cases hg : a.getUnknownGen n with
    | none =>
      rw [trustingGo_cons_none hg]
      simp
    | some p =>
      obtain ⟨e2, i2⟩ := p
      have hidx : i2.index = n := (getUnknownGen_eq_some.mp hg).1
      rw [trustingGo_cons_some hg]
      simpa [hidx] using ih.cons₂ n

theorem trustingGo_panics {a : Arena} {l : List Nat} {n : Nat}
    (hmem : n ∈ l) (hbad : a.getUnknownGen n = none) : (trustingGo a l).2 = true := by
  induction l with
  | nil => cases hmem
  | cons m rest ih =>
    cases hg : a.getUnknownGen m with
    | none => rw [trustingGo_cons_none hg]
    | some p =>
      obtain ⟨e2, i2⟩ := p
      rw [trustingGo_cons_some hg]
      rcases List.mem_cons.mp hmem with rfl | hmem2
      · rw [hbad] at hg
        cases hg
      · exact ih hmem2

theorem trustingGo_yield_live {a : Arena} {l : List Nat} {i : Index} {e : Entity}
    (h : (i, e) ∈ (trustingGo a l).1) : a.getUnknownGen i.index = some (e, i) := by
  induction l with
  | nil => simp [trustingGo] at h
  | cons m rest ih =>
    cases hg : a.getUnknownGen m with
    | none =>
      rw [trustingGo_cons_none hg] at h
      cases h
    | some p =>
      obtain ⟨e2, i2⟩ := p
      rw [trustingGo_cons_some hg] at h
      rcases List.mem_cons.mp h with heq | hmem
      · cases heq
        have hidx : i.index = m := (getUnknownGen_eq_some.mp hg).1
        rw [hidx]
        exact hg
      · exact ih hmem

theorem get_eq_some_iff {s : EntityList} {id : Index} {e : Entity} :
    s.get id = some e ↔
      s.entities.items.get? id.index = some (Entry.occupied id.generation e) := by
  unfold EntityList.get Arena.get
  cases hq : s.entities.items.get? id.index with
  | none => simp
  | some entry =>
    cases entry with
    | free m => simp
    | occupied g v =>
      by_cases h : g = id.generation
      · subst h
        simp
      · simp [h, Entry.occupied.injEq]

/-! ### Claims about the conjunctive iteration engine -/

/-- C2: on a store whose registered indices satisfy the index-correctness
invariant, the filtered traversal `iter_for_components::<(T1..Tn)>` yields
exactly the (id, entity) pairs whose entity has every requested component
populated, independently of whether each requested type has a registered
index — a type with no registered index enters the left-fold AND as
`BitSetAll`, the all-ones identity, so it matches every occupied slot. -/
theorem conjunction_correctness (s : EntityList) (req : List Nat)
    (hs : IndexCorrect s = true)
    (hlen : s.entities.items.length ≤ bitsetUniverse) :
    ∀ id e, (id, e) ∈ s.iterForComponents req ↔
      (s.get id = some e ∧ entityHasComponents e req = true) := by
  intro id e
  rw [EntityList.iterForComponents, mem_defensiveGo, mem_iterList]
  constructor
  · rintro ⟨⟨hmemB, hlt⟩, hres, hcomp⟩
    obtain ⟨-, hq⟩ := getUnknownGen_eq_some.mp hres
    exact ⟨get_eq_some_iff.mpr hq, hcomp⟩
  · rintro ⟨hget, hcomp⟩
    have hq := get_eq_some_iff.mp hget
    have hlt : id.index < s.entities.items.length := (List.get?_eq_some.mp hq).1
    refine ⟨⟨?_, lt_of_lt_of_le hlt hlen⟩, getUnknownGen_eq_some.mpr ⟨rfl, hq⟩, hcomp⟩
    rw [mem_combinedBitset, List.all_eq_true]
    intro c hc
    cases hl : assocLookup s.bitsets c with
    | none => simp
    | some bset =>
      simp only
      unfold IndexCorrect at hs
      have hbuild : bset = buildBitset s.entities c := lookup_all_eq hs hl
      rw [hbuild]
      exact mem_buildBitset.mpr
        ⟨id.generation, e, hq, List.all_eq_true.mp hcomp c hc⟩

/-- C4: every traversal — the unfiltered arena iteration, the defensive
filtered iterator of `src/src/entity_list.rs` (whose mutable variant yields
the same sequence of positions), and the trusting filtered iterator of
`src/src/iter.rs` — yields strictly ascending slot positions, as does the raw
bit iterator; consequently no slot position is yielded twice within one
traversal, the debug monotonicity assertion of the mutable `next` holds on
every step, and two references handed out on distinct steps of one mutable
traversal never address the same slot. -/
theorem traversal_ordering (s : EntityList) (req : List Nat) (b : BitSetLike)
    (a : Arena) :
    (s.iterAll.map (fun x => x.1.index)).Pairwise (· < ·)
    ∧ ((s.iterForComponents req).map (fun x => x.1.index)).Pairwise (· < ·)
    ∧ ((trustingIterOut b a).1.map (fun x => x.1.index)).Pairwise (· < ·)
    ∧ (BitSetLike.iterList b).Pairwise (· < ·)
    ∧ ((s.iterForComponents req).map (fun x => x.1.index)).Nodup := by
  have hAll : (s.iterAll.map (fun x => x.1.index)).Pairwise (· < ·) := by
    rw [EntityList.iterAll, List.map_map]
    have hsub := occList_positions_sublist s.entities
    have : ((fun x : Index × Entity => x.1.index) ∘
        (fun x : Nat × Nat × Entity => (⟨x.1, x.2.1⟩, x.2.2))) =
        (fun x : Nat × Nat × Entity => x.1) := rfl
    rw [this]
    exact List.Pairwise.sublist hsub (List.pairwise_lt_range _)
  have hDef : ((s.iterForComponents req).map (fun x => x.1.index)).Pairwise (· < ·) :=
    List.Pairwise.sublist (defensiveGo_positions_sublist _ _ _) (pairwise_iterList _)
  have hTru : ((trustingIterOut b a).1.map (fun x => x.1.index)).Pairwise (· < ·) :=
    List.Pairwise.sublist (trustingGo_positions_sublist _ _) (pairwise_iterList _)
  exact ⟨hAll, hDef, hTru, pairwise_iterList b,
    hDef.imp (fun h => Nat.ne_of_lt h)⟩

/-- C7: when the combined bit vector yields a position the slot pool cannot
resolve to a live record — or, for the defensive policy, resolves to a record
lacking a requested component — the filtered traversals never yield that
position as an ordinary result: the defensive iterator of
`src/src/entity_list.rs` silently skips it and continues with the remaining
set bits, while the trusting iterator of `src/src/iter.rs` hits its fatal
`expect` panic (on the unresolvable case) and yields only pool-resolvable
positions before aborting. -/
theorem internal_consistency_violation (b : BitSetLike) (a : Arena)
    (req : List Nat) (n : Nat)
    (hmem : n ∈ b.iterList)
    (hbad : a.getUnknownGen n = none ∨
      ∃ e i, a.getUnknownGen n = some (e, i) ∧ entityHasComponents e req = false) :
    (∀ i e, (i, e) ∈ defensiveGo a req b.iterList → i.index ≠ n)
    ∧ defensiveGo a req b.iterList =
        defensiveGo a req (b.iterList.filter (fun m => m ≠ n))
    ∧ (a.getUnknownGen n = none →
        (trustingIterOut b a).2 = true
        ∧ ∀ i e, (i, e) ∈ (trustingIterOut b a).1 → i.index ≠ n) := by
  refine ⟨?_, ?_, ?_⟩
  · rintro i e hin rfl
    obtain ⟨hmem2, hres, hcomp⟩ := mem_defensiveGo.mp hin
    rcases hbad with hnone | ⟨e2, i2, hsome, hcomp2⟩
    · rw [hnone] at hres
      cases hres
    · rw [hsome] at hres
      cases hres
      rw [hcomp] at hcomp2
      cases hcomp2
  · generalize b.iterList = l
    induction l with
    | nil => simp [defensiveGo]
    | cons m rest ih =>
      by_cases hmn : m = n
      · subst hmn
        have hfil : (m :: rest).filter (fun k => decide (k ≠ m)) =
            rest.filter (fun k => decide (k ≠ m)) := by
          simp
        rw [hfil, ← ih]
        rcases hbad with hnone | ⟨e2, i2, hsome, hcomp2⟩
        · rw [defensiveGo_cons_none hnone]
        · rw [defensiveGo_cons_neg hsome hcomp2]
      · have hfil : (m :: rest).filter (fun k => decide (k ≠ n)) =
            m :: rest.filter (fun k => decide (k ≠ n)) := by
          simp [hmn]
        rw [hfil]
        cases hg : a.getUnknownGen m with
        | none => rw [defensiveGo_cons_none hg, defensiveGo_cons_none hg, ih]
        | some p =>
          obtain ⟨e2, i2⟩ := p
          cases hc : entityHasComponents e2 req with
          | true => rw [defensiveGo_cons_pos hg hc, defensiveGo_cons_pos hg hc, ih]
          | false => rw [defensiveGo_cons_neg hg hc, defensiveGo_cons_neg hg hc, ih]
  · intro hnone
    refine ⟨trustingGo_panics hmem hnone, ?_⟩
    rintro i e hin rfl
    have := trustingGo_yield_live hin
    rw [hnone] at this
    cases this

/-! ### Helper lemmas: the slot pool -/

theorem arena_get_eq_some {a : Arena} {id : Index} {e : Entity} :
    a.get id = some e ↔
      a.items.get? id.index = some (Entry.occupied id.generation e) := by
  unfold Arena.get
  cases hq : a.items.get? id.index with
  | none => simp
  | some entry =>
    cases entry with
    | free m => simp
    | occupied g v =>
      by_cases h : g = id.generation
      · subst h
        simp
      · simp [h, Entry.occupied.injEq]

theorem arena_get_eq_none {a : Arena} {id : Index} :
    a.get id = none ↔
      ∀ e, a.items.get? id.index ≠ some (Entry.occupied id.generation e) := by
  constructor
  · intro h e he
    rw [arena_get_eq_some.mpr he] at h
    cases h
  · intro h
    cases hg : a.get id with
    | none => rfl
    | some e => exact absurd (arena_get_eq_some.mp hg) (h e)

theorem reserve_entries_not_occupied (a : Arena) (m additional : Nat) {g : Nat}
    {v : Entity} :
    ((List.range additional).map (fun k =>
      if k = additional - 1 then Entry.free a.freeListHead
      else Entry.free (some (a.items.length + k + 1)))).get? m ≠
        some (Entry.occupied g v) := by
  intro h
  rw [List.get?_map] at h
  cases hr : (List.range additional).get? m with
  | none => rw [hr] at h; cases h
  | some k =>
    rw [hr] at h
    by_cases hk : k = additional - 1 <;> simp [hk] at h

theorem tryInsert_eq_some {a : Arena} {e : Entity} {r : Arena × Index}
    (ht : a.tryInsert e = some r) :
    ∃ i next, a.freeListHead = some i
      ∧ a.items.get? i = some (Entry.free next)
      ∧ r = ({ a with items := a.items.set i (Entry.occupied a.generation e),
                      freeListHead := next,
                      len := a.len + 1 },
             (⟨i, a.generation⟩ : Index)) := by
  unfold Arena.tryInsert at ht
  split at ht
  · cases ht
  · rename_i i hh
    split at ht
    · rename_i next hq
      injection ht with ht2
      exact ⟨i, next, hh, hq, ht2.symm⟩
    · cases ht

theorem insert_eq_of_tryInsert_some {a : Arena} {e : Entity} {r : Arena × Index}
    (ht : a.tryInsert e = some r) : a.insert e = r := by
  unfold Arena.insert
  rw [ht]

theorem insert_eq_of_tryInsert_none {a : Arena} {e : Entity}
    (ht : a.tryInsert e = none) :
    a.insert e =
      match (a.reserve (max a.items.length 1)).tryInsert e with
      | some r => r
      | none => (a.reserve (max a.items.length 1), (⟨0, 0⟩ : Index)) := by
  unfold Arena.insert
  rw [ht]

/-- Case analysis of `Arena::insert`: it returns an identifier carrying the
current arena generation, writes the new record into a slot that was not
occupied before, leaves the arena generation unchanged, and at every other
position either preserves the entry or extends the array with free entries. -/
theorem insert_cases (a : Arena) (e : Entity) :
    ∃ i, (a.insert e).2 = ⟨i, a.generation⟩
    ∧ (a.insert e).1.generation = a.generation
    ∧ (∀ g v, a.items.get? i ≠ some (Entry.occupied g v))
    ∧ (a.insert e).1.items.get? i = some (Entry.occupied a.generation e)
    ∧ (∀ j, j ≠ i →
        ((a.insert e).1.items.get? j = a.items.get? j ∨
         (a.items.get? j = none ∧
          ∀ g v, (a.insert e).1.items.get? j ≠ some (Entry.occupied g v)))) := by
  cases ht : a.tryInsert e with
  | some r =>
    obtain ⟨i, next, hh, hq, hr⟩ := tryInsert_eq_some ht
    rw [insert_eq_of_tryInsert_some ht, hr]
    have hlt : i < a.items.length := (List.get?_eq_some.mp hq).1
    refine ⟨i, rfl, rfl, ?_, ?_, ?_⟩
    · intro g v hocc
      rw [hq] at hocc
      cases hocc
    · simpa using List.get?_set_eq_of_lt (Entry.occupied a.generation e) hlt
    · intro j hj
      exact Or.inl (List.get?_set_ne _ _ (fun h => hj h.symm))
  | none =>
    set additional := max a.items.length 1 with hadd
    have haddpos : 0 < additional := by
      rw [hadd]
      exact lt_of_lt_of_le Nat.one_pos (Nat.le_max_right _ _)
    set newEntries := (List.range additional).map (fun k =>
      if k = additional - 1 then Entry.free a.freeListHead
      else Entry.free (some (a.items.length + k + 1))) with hne
    have hlen : newEntries.length = additional := by
      rw [hne, List.length_map, List.length_range]
    have hhead : (a.reserve additional).freeListHead = some a.items.length := by
      unfold Arena.reserve
      simp [Nat.ne_of_gt haddpos]
    have hitems : (a.reserve additional).items = a.items ++ newEntries := by
      unfold Arena.reserve
      rw [hne]
    have hget0 : ∃ nx, (a.reserve additional).items.get? a.items.length =
        some (Entry.free nx) := by
      rw [hitems, List.get?_append_right (Nat.le_refl _), Nat.sub_self]
      rw [hne, List.get?_map]
      have hr0 : (List.range additional).get? 0 = some 0 := by
        rw [List.get?_range haddpos]
      rw [hr0]
      by_cases h0 : (0 : Nat) = additional - 1 <;> simp [h0]
    obtain ⟨next, hnext⟩ := hget0
    have htry : (a.reserve additional).tryInsert e =
        some ({ a.reserve additional with
                  items := (a.reserve additional).items.set a.items.length
                    (Entry.occupied (a.reserve additional).generation e),
                  freeListHead := next,
                  len := (a.reserve additional).len + 1 },
              (⟨a.items.length, (a.reserve additional).generation⟩ : Index)) := by
      simp only [Arena.tryInsert, hhead, hnext]
    have hins : a.insert e =
        ({ a.reserve additional with
             items := (a.reserve additional).items.set a.items.length
               (Entry.occupied (a.reserve additional).generation e),
             freeListHead := next,
             len := (a.reserve additional).len + 1 },
         (⟨a.items.length, (a.reserve additional).generation⟩ : Index)) := by
      rw [insert_eq_of_tryInsert_none ht, htry]
    have hgen : (a.reserve additional).generation = a.generation := rfl
    have hlt : a.items.length < (a.reserve additional).items.length := by
      rw [hitems, List.length_append, hlen]
      exact Nat.lt_add_of_pos_right haddpos
    rw [hins, hgen]
    refine ⟨a.items.length, rfl, rfl, ?_, ?_, ?_⟩
    · intro g v hocc
      rw [List.get?_len_le (Nat.le_refl _)] at hocc
      cases hocc
    · simpa using List.get?_set_eq_of_lt (Entry.occupied a.generation e) hlt
    · intro j hj
      by_cases hjl : j < a.items.length
      · left
        rw [List.get?_set_ne _ _ (fun h => hj h.symm), hitems,
          List.get?_append hjl]
      · right
        constructor
        · exact List.get?_len_le (Nat.le_of_not_lt hjl)
        · intro g v hocc
          rw [List.get?_set_ne _ _ (fun h => hj h.symm), hitems,
            List.get?_append_right (Nat.le_of_not_lt hjl)] at hocc
          exact reserve_entries_not_occupied a _ additional hocc

theorem get_insert_self (a : Arena) (e : Entity) :
    (a.insert e).1.get (a.insert e).2 = some e := by
  obtain ⟨i, hid, hgen, hnot, hwrote, hother⟩ := insert_cases a e
  rw [hid, arena_get_eq_some]
  exact hwrote

theorem id_insert_generation (a : Arena) (e : Entity) :
    (a.insert e).2.generation = a.generation := by
  obtain ⟨i, hid, -⟩ := insert_cases a e
  rw [hid]

theorem generation_insert (a : Arena) (e : Entity) :
    (a.insert e).1.generation = a.generation := by
  obtain ⟨i, -, hgen, -⟩ := insert_cases a e
  exact hgen

theorem get_insert_other {a : Arena} {id : Index} {v : Entity} (e : Entity)
    (h : a.get id = some v) : (a.insert e).1.get id = some v := by
  obtain ⟨i, hid, hgen, hnot, hwrote, hother⟩ := insert_cases a e
  have hq := arena_get_eq_some.mp h
  have hne : id.index ≠ i := by
    intro heq
    exact hnot _ _ (heq ▸ hq)
  rw [arena_get_eq_some]
  rcases hother id.index hne with hsame | ⟨hnone, -⟩
  · rw [hsame]
    exact hq
  · rw [hnone] at hq
    cases hq

theorem get_insert_dead {a : Arena} {id : Index} (e : Entity)
    (h1 : a.get id = none) (h2 : id.generation < a.generation) :
    (a.insert e).1.get id = none := by
  obtain ⟨i, hid, hgen, hnot, hwrote, hother⟩ := insert_cases a e
  rw [arena_get_eq_none]
  intro v hv
  by_cases hne : id.index = i
  · rw [hne, hwrote] at hv
    injection hv with hv2
    injection hv2 with hv3 hv4
    exact absurd hv3.symm (Nat.ne_of_lt h2)
  · rcases hother id.index hne with hsame | ⟨hnone, hnocc⟩
    · rw [hsame] at hv
      exact arena_get_eq_none.mp h1 v hv
    · exact hnocc _ _ hv

theorem remove_eq_hit {a : Arena} {id : Index} {e : Entity}
    (hq : a.items.get? id.index = some (Entry.occupied id.generation e)) :
    a.remove id =
      ({ items := a.items.set id.index (Entry.free a.freeListHead),
         generation := a.generation + 1,
         freeListHead := some id.index,
         len := a.len - 1 }, some e) := by
  unfold Arena.remove
  rw [hq]
  simp

theorem remove_miss {a : Arena} {id : Index} (h : a.get id = none) :
    a.remove id = (a, none) := by
  unfold Arena.remove
  cases hq : a.items.get? id.index with
  | none => rfl
  | some entry =>
    cases entry with
    | free m => rfl
    | occupied g v =>
      have hne : g ≠ id.generation := by
        intro hg
        exact arena_get_eq_none.mp h v (by rw [hq, hg])
      simp [hne]

theorem remove_of_get_some {a : Arena} {id : Index} {e : Entity}
    (h : a.get id = some e) :
    (a.remove id).2 = some e
    ∧ (a.remove id).1.generation = a.generation + 1
    ∧ (a.remove id).1.items = a.items.set id.index (Entry.free a.freeListHead)
    ∧ (a.remove id).1.get id = none := by
  have hq := arena_get_eq_some.mp h
  have hlt : id.index < a.items.length := (List.get?_eq_some.mp hq).1
  rw [remove_eq_hit hq]
  refine ⟨rfl, rfl, rfl, ?_⟩
  rw [arena_get_eq_none]
  intro v hv
  simp only at hv
  rw [List.get?_set_eq_of_lt _ hlt] at hv
  cases hv

theorem generation_remove_mono (a : Arena) (id : Index) :
    a.generation ≤ (a.remove id).1.generation := by
  cases h : a.get id with
  | none =>
    rw [remove_miss h]
  | some e =>
    rw [remove_eq_hit (arena_get_eq_some.mp h)]
    exact Nat.le_succ _

theorem get_remove_other {a : Arena} {id id2 : Index} {e : Entity}
    (h : a.get id = some e) (hne : id2 ≠ id) :
    (a.remove id2).1.get id = some e := by
  cases h2 : a.get id2 with
  | none =>
    rw [remove_miss h2]
    exact h
  | some e2 =>
    have hq := arena_get_eq_some.mp h
    have hq2 := arena_get_eq_some.mp h2
    have hneidx : id.index ≠ id2.index := by
      intro heq
      rw [← heq, hq] at hq2
      injection hq2 with hq3
      injection hq3 with hg hv
      apply hne
      obtain ⟨i2, g2⟩ := id2
      obtain ⟨i1, g1⟩ := id
      simp only at heq hg
      simp [← heq, ← hg]
    rw [remove_eq_hit hq2, arena_get_eq_some]
    simp only
    rw [List.get?_set_ne _ _ (fun hh => hneidx hh.symm)]
    exact hq

theorem get_remove_dead {a : Arena} {id id2 : Index} (h : a.get id = none) :
    (a.remove id2).1.get id = none := by
  cases h2 : a.get id2 with
  | none =>
    rw [remove_miss h2]
    exact h
  | some e2 =>
    have hq2 := arena_get_eq_some.mp h2
    have hlt2 : id2.index < a.items.length := (List.get?_eq_some.mp hq2).1
    rw [remove_eq_hit hq2, arena_get_eq_none]
    intro v hv
    simp only at hv
    by_cases hidx : id.index = id2.index
    · rw [hidx, List.get?_set_eq_of_lt _ hlt2] at hv
      cases hv
    · rw [List.get?_set_ne _ _ (fun hh => hidx hh.symm)] at hv
      exact arena_get_eq_none.mp h v hv

/-- Arena-wide generation bound: every occupied slot's generation is at most
the arena generation counter.  `Arena::insert` stamps new records with the
current counter and `Arena::remove` only increases it, so the bound is an
invariant of every reachable pool. -/
def genInv (a : Arena) : Prop :=
  ∀ i g e, a.items.get? i = some (Entry.occupied g e) → g ≤ a.generation

theorem genInv_new : genInv Arena.new := by
  intro i g e h
  rcases i with _ | _ | _ | _ | i
  · cases h
  · cases h
  · cases h
  · cases h
  · rw [List.get?_len_le (by simp [Arena.new])] at h
    cases h

theorem genInv_insert {a : Arena} (e : Entity) (hg : genInv a) :
    genInv (a.insert e).1 := by
  obtain ⟨i, hid, hgen, hnot, hwrote, hother⟩ := insert_cases a e
  intro j g v hj
  rw [hgen]
  by_cases hji : j = i
  · rw [hji, hwrote] at hj
    injection hj with hj2
    injection hj2 with hj3 hj4
    rw [← hj3]
  · rcases hother j hji with hsame | ⟨-, hnocc⟩
    · rw [hsame] at hj
      exact hg j g v hj
    · exact absurd hj (hnocc g v)

theorem genInv_remove {a : Arena} (id : Index) (hg : genInv a) :
    genInv (a.remove id).1 := by
  cases h : a.get id with
  | none =>
    rw [remove_miss h]
    exact hg
  | some e =>
    have hq := arena_get_eq_some.mp h
    have hlt : id.index < a.items.length := (List.get?_eq_some.mp hq).1
    rw [remove_eq_hit hq]
    intro j g v hj
    simp only at hj ⊢
    by_cases hji : j = id.index
    · rw [hji, List.get?_set_eq_of_lt _ hlt] at hj
      cases hj
    · rw [List.get?_set_ne _ _ (fun hh => hji hh.symm)] at hj
      exact Nat.le_succ_of_le (hg j g v hj)

/-! ### Lifting the pool lemmas to the store -/

theorem entityList_insert_entities (s : EntityList) (e : Entity) :
    (s.insert e).1.entities = (s.entities.insert e).1 := rfl

theorem entityList_insert_id (s : EntityList) (e : Entity) :
    (s.insert e).2 = (s.entities.insert e).2 := rfl

theorem entityList_remove_parts (s : EntityList) (id : Index) :
    (s.remove id).1.entities = (s.entities.remove id).1 ∧
    (s.remove id).2 = (s.entities.remove id).2 := by
  unfold EntityList.remove
  rcases hr : s.entities.remove id with ⟨a2, r⟩
  cases r <;> simp

/-- A permanently dead identifier: unresolvable now, with a generation
strictly below the arena counter, so no later slot reuse can revive it. -/
def DeadIn (a : Arena) (id : Index) : Prop :=
  a.get id = none ∧ id.generation < a.generation

theorem dead_insert {a : Arena} {id : Index} (e : Entity) (h : DeadIn a id) :
    DeadIn (a.insert e).1 id :=
  ⟨get_insert_dead e h.1 h.2, by rw [generation_insert]; exact h.2⟩

theorem dead_remove {a : Arena} {id id2 : Index} (h : DeadIn a id) :
    DeadIn (a.remove id2).1 id :=
  ⟨get_remove_dead h.1, lt_of_lt_of_le h.2 (generation_remove_mono a id2)⟩

theorem dead_applyIR {s : EntityList} {id : Index} (ops : List IROp)
    (h : DeadIn s.entities id) : DeadIn (applyIR ops s).entities id := by
  induction ops generalizing s with
  | nil => exact h
  | cons op rest ih =>
    show DeadIn (applyIR rest (applyIROp s op)).entities id
    apply ih
    cases op with
    | ins e =>
      show DeadIn (s.insert e).1.entities id
      rw [entityList_insert_entities]
      exact dead_insert e h
    | rem id2 =>
      show DeadIn (s.remove id2).1.entities id
      rw [(entityList_remove_parts s id2).1]
      exact dead_remove h

theorem get_applyIR_avoid {id : Index} {e : Entity} (ops : List IROp) :
    ∀ s : EntityList, s.get id = some e → avoidsRemove id ops = true →
      (applyIR ops s).get id = some e := by
  induction ops with
  | nil =>
    intro s h _
    exact h
  | cons op rest ih =>
    intro s h hav
    unfold avoidsRemove at hav
    simp only [List.all_cons, Bool.and_eq_true] at hav
    show (applyIR rest (applyIROp s op)).get id = some e
    apply ih _ _ hav.2
    cases op with
    | ins e2 =>
      show (s.insert e2).1.get id = some e
      show (s.insert e2).1.entities.get id = some e
      rw [entityList_insert_entities]
      exact get_insert_other e2 h
    | rem id2 =>
      have hne : id2 ≠ id := by
        have h1 := hav.1
        simp only [decide_eq_true_eq] at h1
        exact h1
      show (s.remove id2).1.entities.get id = some e
      rw [(entityList_remove_parts s id2).1]
      exact get_remove_other h hne

theorem genInv_applyIR (ops : List IROp) :
    ∀ s : EntityList, genInv s.entities → genInv (applyIR ops s).entities := by
  induction ops with
  | nil =>
    intro s h
    exact h
  | cons op rest ih =>
    intro s h
    show genInv (applyIR rest (applyIROp s op)).entities
    apply ih
    cases op with
    | ins e =>
      show genInv (s.insert e).1.entities
      rw [entityList_insert_entities]
      exact genInv_insert e h
    | rem id2 =>
      show genInv (s.remove id2).1.entities
      rw [(entityList_remove_parts s id2).1]
      exact genInv_remove id2 h

theorem reachableIR_genInv {s : EntityList} (h : ReachableIR s) :
    genInv s.entities := by
  obtain ⟨ops, rfl⟩ := h
  exact genInv_applyIR ops EntityList.new genInv_new

/-- C5: over any insert/remove history from the empty store — (1) a freshly
inserted identifier is contained and resolves to the inserted entity; (2) it
stays contained, with the same record, across any further operations that do
not remove it; (3) the matching remove hands the entity back, and afterwards
the identifier resolves to nothing and is not contained, whatever inserts and
removes follow; and (4) any later insert that reuses the identifier's slot
index returns an identifier with a strictly higher generation, which compares
unequal to the removed one. -/
theorem identifier_integrity (s : EntityList) (hs : ReachableIR s) :
    (∀ e, (s.insert e).1.get (s.insert e).2 = some e
        ∧ (s.insert e).1.contains (s.insert e).2 = true)
    ∧ (∀ id e ops, s.get id = some e → avoidsRemove id ops = true →
        (applyIR ops s).get id = some e ∧ (applyIR ops s).contains id = true)
    ∧ (∀ id e, s.get id = some e →
        (s.remove id).2 = some e
        ∧ ∀ ops, (applyIR ops (s.remove id).1).get id = none
            ∧ (applyIR ops (s.remove id).1).contains id = false)
    ∧ (∀ id e, s.get id = some e → ∀ ops e2,
        ((applyIR ops (s.remove id).1).insert e2).2.index = id.index →
          id.generation < ((applyIR ops (s.remove id).1).insert e2).2.generation
          ∧ ((applyIR ops (s.remove id).1).insert e2).2 ≠ id) := by
  have hgen : genInv s.entities := reachableIR_genInv hs
  have hdead : ∀ id e, s.get id = some e → DeadIn (s.remove id).1.entities id := by
    intro id e h
    have hq : s.entities.items.get? id.index =
        some (Entry.occupied id.generation e) := arena_get_eq_some.mp h
    have hrem := remove_of_get_some (show s.entities.get id = some e from h)
    rw [(entityList_remove_parts s id).1]
    refine ⟨hrem.2.2.2, ?_⟩
    rw [hrem.2.1]
    exact Nat.lt_succ_of_le (hgen id.index id.generation e hq)
  refine ⟨?_, ?_, ?_, ?_⟩
  · intro e
    have h1 : (s.insert e).1.get (s.insert e).2 = some e :=
      get_insert_self s.entities e
    refine ⟨h1, ?_⟩
    show ((s.insert e).1.get (s.insert e).2).isSome = true
    rw [h1]
    rfl
  · intro id e ops h hav
    have h2 := get_applyIR_avoid ops s h hav
    refine ⟨h2, ?_⟩
    show ((applyIR ops s).get id).isSome = true
    rw [h2]
    rfl
  · intro id e h
    have hrem := remove_of_get_some (show s.entities.get id = some e from h)
    constructor
    · rw [(entityList_remove_parts s id).2]
      exact hrem.1
    · intro ops
      have hd2 := dead_applyIR ops (hdead id e h)
      refine ⟨hd2.1, ?_⟩
      show ((applyIR ops (s.remove id).1).entities.get id).isSome = false
      rw [hd2.1]
      rfl
  · intro id e h ops e2 _hidx
    have hd2 := dead_applyIR ops (hdead id e h)
    have hgen2 : ((applyIR ops (s.remove id).1).insert e2).2.generation =
        (applyIR ops (s.remove id).1).entities.generation :=
      id_insert_generation (applyIR ops (s.remove id).1).entities e2
    constructor
    · rw [hgen2]
      exact hd2.2
    · intro heq
      have hg2 := congrArg Index.generation heq
      rw [hgen2] at hg2
      exact absurd hg2 (Nat.ne_of_gt hd2.2)

/-! ### Misses, index rebuilds, snapshots -/

/-- C6: a stale or never-issued identifier misses totally and without side
effects: `get` and `get_mut` return nothing, `contains` is false, `remove`
returns nothing, `add_component_for_entity` hands the component back, and
`remove_component_for_entity` returns nothing — and in every one of these
cases the store (records and all bitset indices) is returned completely
unchanged, with no error raised. -/
theorem miss_totality (s : EntityList) (id : Index) (c v : Nat)
    (h : s.get id = none) :
    s.getMut id = none
    ∧ s.contains id = false
    ∧ s.remove id = (s, none)
    ∧ s.addComponentForEntity id c v = (s, some v)
    ∧ s.removeComponentForEntity id c = (s, none) := by
  have harena : s.entities.get id = none := h
  refine ⟨h, ?_, ?_, ?_, ?_⟩
  · show (s.entities.get id).isSome = false
    rw [harena]
    rfl
  · unfold EntityList.remove
    rw [remove_miss harena]
  · unfold EntityList.addComponentForEntity
    have hmod : s.entities.modify id (fun e => e.set c v) = (s.entities, false) := by
      unfold Arena.modify
      cases hq : s.entities.items.get? id.index with
      | none => rfl
      | some entry =>
        cases entry with
        | free m => rfl
        | occupied g v2 =>
          have hne : g ≠ id.generation := fun hg =>
            arena_get_eq_none.mp harena v2 (by rw [hq, hg])
          simp [hne]
    rw [hmod]
    rfl
  · unfold EntityList.removeComponentForEntity
    cases hq : s.entities.items.get? id.index with
    | none => rfl
    | some entry =>
      cases entry with
      | free m => rfl
      | occupied g e2 =>
        have hne : g ≠ id.generation := fun hg =>
          arena_get_eq_none.mp harena e2 (by rw [hq, hg])
        simp [hne]

theorem assocLookup_insert_self (l : List (Nat × List Nat)) (c : Nat)
    (b : List Nat) : assocLookup (assocInsert l c b) c = some b := by
  induction l with
  | nil => simp [assocInsert, assocLookup]
  | cons kv rest ih =>
    by_cases h : kv.1 = c
    · simp [assocInsert, h, assocLookup]
    · simp [assocInsert, h, assocLookup, ih]

/-- C8: `add_bitset_for_component::<T>` installs exactly the record-by-record
scan — bit `p` is set iff slot `p` holds a live record with `T` populated,
including records that existed before the index was built — and on a store
whose indices satisfy the invariant, dropping `T`'s index and rebuilding it
reproduces the incrementally maintained bit vector exactly. -/
theorem index_build_rebuild (s : EntityList) (c : Nat) :
    (assocLookup (s.addBitsetForComponent c).bitsets c =
      some (buildBitset s.entities c))
    ∧ (∀ p, bsContains (buildBitset s.entities c) p = true ↔
        ∃ g e, s.entities.items.get? p = some (Entry.occupied g e)
          ∧ e.has c = true)
    ∧ (∀ b, IndexCorrect s = true → assocLookup s.bitsets c = some b →
        assocLookup
          ((s.removeBitsetForComponent c).1.addBitsetForComponent c).bitsets c
          = some b) := by
  refine ⟨assocLookup_insert_self _ _ _, fun p => mem_buildBitset, ?_⟩
  intro b hs hb
  unfold IndexCorrect at hs
  have hbeq : b = buildBitset s.entities c := lookup_all_eq hs hb
  rw [hbeq]
  exact assocLookup_insert_self (s.removeBitsetForComponent c).1.bitsets c _

/-- C10: calling `add_bitset_for_component::<C>` on a store whose current
bitset table is arbitrary — in particular one holding a stale index for `C`,
e.g. invalidated through `get_mut` — installs the bit vector recomputed
entirely from live component presence (`HashMap::insert` overwrites the old
entry), so the index for `C` afterwards satisfies the pointwise
index-correctness characterisation regardless of its previous bits. -/
theorem add_bitset_resync (bs : List (Nat × List Nat)) (a : Arena) (c : Nat) :
    assocLookup ((EntityList.mk bs a).addBitsetForComponent c).bitsets c =
      some (buildBitset a c)
    ∧ ∀ p, bsContains (buildBitset a c) p = true ↔
        ∃ g e, a.items.get? p = some (Entry.occupied g e) ∧ e.has c = true :=
  ⟨assocLookup_insert_self bs c (buildBitset a c), fun p => mem_buildBitset⟩

theorem snapItems_length (snap : List (Option (Nat × Entity))) :
    ∀ i, (snapItems i snap).1.length = snap.length := by
  induction snap with
  | nil =>
    intro i
    rfl
  | cons o rest ih =>
    intro i
    cases o with
    | none =>
      show (Entry.free (snapItems (i + 1) rest).2 ::
        (snapItems (i + 1) rest).1).length = rest.length + 1
      simp [ih]
    | some p =>
      obtain ⟨g, e⟩ := p
      show (Entry.occupied g e :: (snapItems (i + 1) rest).1).length =
        rest.length + 1
      simp [ih]

theorem snapItems_get_occ (snap : List (Option (Nat × Entity))) :
    ∀ i p g e, snap.get? p = some (some (g, e)) →
      (snapItems i snap).1.get? p = some (Entry.occupied g e) := by
  induction snap with
  | nil =>
    intro i p g e h
    cases h
  | cons o rest ih =>
    intro i p g e h
    cases p with
    | zero =>
      have h2 : o = some (g, e) := by
        injection h
      subst h2
      rfl
    | succ p2 =>
      have h2 : rest.get? p2 = some (some (g, e)) := h
      cases o with
      | none =>
        show (snapItems (i + 1) rest).1.get? p2 = some (Entry.occupied g e)
        exact ih (i + 1) p2 g e h2
      | some q =>
        obtain ⟨g2, e2⟩ := q
        show (snapItems (i + 1) rest).1.get? p2 = some (Entry.occupied g e)
        exact ih (i + 1) p2 g e h2

theorem snapItems_get_free (snap : List (Option (Nat × Entity))) :
    ∀ i p, snap.get? p = some none →
      ∃ m, (snapItems i snap).1.get? p = some (Entry.free m) := by
  induction snap with
  | nil =>
    intro i p h
    cases h
  | cons o rest ih =>
    intro i p h
    cases p with
    | zero =>
      have h2 : o = none := by
        injection h
      subst h2
      exact ⟨(snapItems (i + 1) rest).2, rfl⟩
    | succ p2 =>
      have h2 : rest.get? p2 = some none := h
      cases o with
      | none =>
        show ∃ m, (snapItems (i + 1) rest).1.get? p2 = some (Entry.free m)
        exact ih (i + 1) p2 h2
      | some q =>
        obtain ⟨g2, e2⟩ := q
        show ∃ m, (snapItems (i + 1) rest).1.get? p2 = some (Entry.free m)
        exact ih (i + 1) p2 h2

theorem roundtrip_get (s : EntityList) (id : Index) :
    (arenaOfSnapshot (serializeEntityList s)).get id = s.entities.get id := by
  have hlen : (arenaOfSnapshot (serializeEntityList s)).items.length =
      s.entities.items.length := by
    show (snapItems 0 (serializeEntityList s)).1.length = _
    rw [snapItems_length]
    unfold serializeEntityList
    rw [List.length_map]
  cases hq : s.entities.items.get? id.index with
  | none =>
    have h1 : (arenaOfSnapshot (serializeEntityList s)).items.get? id.index =
        none := by
      rw [List.get?_eq_none, hlen]
      exact List.get?_eq_none.mp hq
    unfold Arena.get
    rw [h1, hq]
  | some entry =>
    cases entry with
    | occupied g e =>
      have h2 : (serializeEntityList s).get? id.index = some (some (g, e)) := by
        unfold serializeEntityList
        rw [List.get?_map, hq]
        rfl
      have h3 : (arenaOfSnapshot (serializeEntityList s)).items.get? id.index =
          some (Entry.occupied g e) := snapItems_get_occ _ 0 id.index g e h2
      unfold Arena.get
      rw [h3, hq]
    | free m =>
      have h2 : (serializeEntityList s).get? id.index = some none := by
        unfold serializeEntityList
        rw [List.get?_map, hq]
        rfl
      have h3 : ∃ m2, (arenaOfSnapshot (serializeEntityList s)).items.get?
          id.index = some (Entry.free m2) :=
        snapItems_get_free _ 0 id.index h2
      obtain ⟨m2, h4⟩ := h3
      unfold Arena.get
      rw [h4, hq]

theorem lookup_map_scan (a : Arena) (registered : List Nat) (c : Nat)
    (hc : c ∈ registered) :
    assocLookup (registered.map (fun c2 => (c2, buildBitset a c2))) c =
      some (buildBitset a c) := by
  induction registered with
  | nil => cases hc
  | cons c2 rest ih =>
    rcases List.mem_cons.mp hc with rfl | hmem
    · simp [assocLookup]
    · by_cases h : c2 = c
      · subst h
        simp [assocLookup]
      · simp [assocLookup, h]
        exact ih hmem

/-- C9: a snapshot persists only the ordered slot-pool contents (it is
invariant under the store's bitset table and never includes it), and the
deserialized store resolves every identifier — live or stale — exactly as the
original did, with the index for each registered component type rebuilt by a
full scan of the loaded records. -/
theorem snapshot_round_trip (s : EntityList) (registered : List Nat) :
    (∀ bs, serializeEntityList (EntityList.mk bs s.entities) =
      serializeEntityList s)
    ∧ (∀ id, (deserializeEntityList registered (serializeEntityList s)).get id =
        s.get id)
    ∧ (∀ id, (deserializeEntityList registered
        (serializeEntityList s)).contains id = s.contains id)
    ∧ (∀ c, c ∈ registered →
        assocLookup
          (deserializeEntityList registered (serializeEntityList s)).bitsets c =
          some (buildBitset (arenaOfSnapshot (serializeEntityList s)) c)) := by
  refine ⟨fun bs => rfl, ?_, ?_, ?_⟩
  · intro id
    show (arenaOfSnapshot (serializeEntityList s)).get id = s.entities.get id
    exact roundtrip_get s id
  · intro id
    show ((arenaOfSnapshot (serializeEntityList s)).get id).isSome =
      (s.entities.get id).isSome
    rw [roundtrip_get s id]
  · intro c hc
    exact lookup_map_scan (arenaOfSnapshot (serializeEntityList s)) registered c hc

/-! ### Concrete stores used as evidence and witnesses -/

/-- A record with component 0 populated (value 7) and component 1 empty. -/
def entA : Entity := { props := 0, comps := [(0, some 7), (1, none)] }

/-- A record with component 1 populated (value 8) and component 0 empty. -/
def entB : Entity := { props := 1, comps := [(0, none), (1, some 8)] }

/-- A store with a registered index for component 0 holding `entA` in slot 0. -/
def storeRetain1 : EntityList :=
  ((EntityList.new.addBitsetForComponent 0).insert entA).1

/-- A store indexing components 0 and 1, holding `entA` (slot 0) and `entB`
(slot 1). -/
def storeRetain2 : EntityList :=
  ((((EntityList.new.addBitsetForComponent 0).addBitsetForComponent
    1).insert entA).1.insert entB).1

/-- A store built by a single insert, for exercising the insert/remove
surface. -/
def storeIR : EntityList := (EntityList.new.insert entA).1

/-- C1: the index-correctness invariant does NOT hold after every sanctioned
mutating call — `retain` breaks it.  On a store satisfying the invariant,
`retain` with the always-true predicate (which, per the method's own
documentation, deletes every record) keeps the record — the length stays 1 and
its identifier is still contained — yet clears its bit, leaving the registered
index for component 0 out of sync with the live record. -/
theorem retain_breaks_index_invariant :
    IndexCorrect storeRetain1 = true
    ∧ (storeRetain1.retain (fun _ _ => true)).len = 1
    ∧ (storeRetain1.retain (fun _ _ => true)).contains ⟨0, 0⟩ = true
    ∧ IndexCorrect (storeRetain1.retain (fun _ _ => true)) = false := by
  decide

/-- C3: `retain`'s documented contract — "deletes entities where the predicate
returns true" — is inverted by the code: `generational_arena::Arena::retain`
KEEPS the elements whose closure returns true, and the store's closure returns
the caller predicate verbatim.  With the predicate "has component 0" (true on
the record in slot 0, false on the record in slot 1), the record that should
be deleted survives unchanged, the record that should survive is deleted, and
the bit-clearing bookkeeping — applied to the kept record — leaves the indices
violating the invariant. -/
theorem retain_inverts_predicate :
    (storeRetain2.retain (fun _ e => e.has 0)).contains ⟨0, 0⟩ = true
    ∧ (storeRetain2.retain (fun _ e => e.has 0)).get ⟨0, 0⟩ = some entA
    ∧ (storeRetain2.retain (fun _ e => e.has 0)).contains ⟨1, 0⟩ = false
    ∧ (storeRetain2.retain (fun _ e => e.has 0)).len = 1
    ∧ IndexCorrect storeRetain2 = true
    ∧ IndexCorrect (storeRetain2.retain (fun _ e => e.has 0)) = false := by
  decide

theorem conjunction_correctness_witness :
    ((⟨0, 0⟩ : Index), entA) ∈ storeRetain2.iterForComponents [0] :=
  (conjunction_correctness storeRetain2 [0] (by decide) (by decide)
    ⟨0, 0⟩ entA).mpr (by decide)

theorem identifier_integrity_witness :
    (storeIR.remove ⟨0, 0⟩).1.get ⟨0, 0⟩ = none
    ∧ (storeIR.remove ⟨0, 0⟩).1.contains ⟨0, 0⟩ = false := by
  have h := (identifier_integrity storeIR
    ⟨[IROp.ins entA], rfl⟩).2.2.1 ⟨0, 0⟩ entA (by decide)
  have h2 := h.2 []
  exact ⟨h2.1, h2.2⟩

theorem miss_totality_witness :
    storeRetain2.remove ⟨5, 0⟩ = (storeRetain2, none)
    ∧ storeRetain2.addComponentForEntity ⟨5, 0⟩ 0 3 = (storeRetain2, some 3) := by
  have h := miss_totality storeRetain2 ⟨5, 0⟩ 0 3 (by decide)
  exact ⟨h.2.2.1, h.2.2.2.1⟩

theorem internal_consistency_violation_witness :
    (trustingIterOut (BitSetLike.set [2]) Arena.new).2 = true := by
  have h := internal_consistency_violation (BitSetLike.set [2]) Arena.new [0] 2
    (mem_iterList.mpr (by decide)) (Or.inl (by decide))
  exact (h.2.2 (by decide)).1

theorem index_build_rebuild_witness :
    assocLookup
      ((storeRetain1.removeBitsetForComponent 0).1.addBitsetForComponent
        0).bitsets 0 = some [0] :=
  (index_build_rebuild storeRetain1 0).2.2 [0] (by decide) (by decide)

theorem snapshot_round_trip_witness :
    assocLookup
      (deserializeEntityList [0] (serializeEntityList storeRetain2)).bitsets 0 =
      some (buildBitset (arenaOfSnapshot (serializeEntityList storeRetain2)) 0) :=
  (snapshot_round_trip storeRetain2 [0]).2.2.2 0 (by decide)

end Mobec
